import Mathlib

/-!
Verification of the localization algorithm of `src/search/localization_jit.py`.

The Python module is embedded shallowly:

* A feature map / integral image of shape (height, width, channels) becomes a
  total function `ℕ → ℕ → Fin D → ℝ`; the height/width bounds are passed
  explicitly where the source reads them from `.shape`.
* IEEE doubles are modelled by real numbers.  The single NaN source of the
  module (division of the pooled vector by a zero L2 norm inside
  `_compute_area_score`; the pooled vector is entrywise nonnegative because of
  the `np.fmax(0.0, ·)` clamp, so its norm is zero exactly when every entry is
  zero, giving 0/0 per channel) is represented by `Option ℝ`: `none` plays the
  role of NaN, and every comparison `NaN > x` is false, matching IEEE
  semantics of the comparisons performed by the module.
* The unbounded `while best_area is None` loop of `localize` is given explicit
  fuel counting the aspect-ratio relaxation sweeps; `none` means that the call
  does not return.
* Python's `for x in range(a, b, s)` (positive step) becomes `rangeStep`.
-/

namespace Localization

/-- A bounding box `(left, upper, right, lower) = (x1, y1, x2, y2)` on the
feature map, inclusive on all sides, as used throughout the module. -/
structure Area where
  x1 : ℕ
  y1 : ℕ
  x2 : ℕ
  y2 : ℕ
  deriving DecidableEq

/-- Feature maps and integral images of shape (height, width, channels):
indexing is `[y][x][channel]`, matching `image[y, x, c]` in numpy. -/
def FeatureMap (D : ℕ) : Type := ℕ → ℕ → Fin D → ℝ

/-- Exponent used in approximate max pooling (`AML_EXP = 10.0`). -/
noncomputable def AML_EXP : ℝ := 10

/-- Python `range(start, stop, step)` for a positive step: the multiples
`start, start + step, ...` strictly below `stop`. -/
def rangeStep (start stop step : ℕ) : List ℕ :=
  List.range' start ((stop - start + step - 1) / step) step

/-- `_area_generator`: enumerates candidate areas `(x1, y1, x2, y2)` over a
`(height, width)` canvas in the nested loop order of the source (x1, x2, y1,
y2, each on a `stepSize` grid), skipping any area whose aspect ratio
`(x2-x1+1)/(y2-y1+1)` deviates from `aspectRatio` by more than
`log maxAspectRatioDiv` in log space. -/
noncomputable def areaGenerator (shape : ℕ × ℕ) (stepSize : ℕ)
    (aspectRatio : ℝ) (maxAspectRatioDiv : ℝ) : List Area :=
  let height := shape.1
  let width := shape.2
  let maxDiv := Real.log maxAspectRatioDiv
  (rangeStep 0 width stepSize).flatMap fun x1 =>
    (rangeStep (x1 + stepSize - 1) width stepSize).flatMap fun x2 =>
      (rangeStep 0 height stepSize).flatMap fun y1 =>
        (rangeStep (y1 + stepSize - 1) height stepSize).flatMap fun y2 =>
          let areaAspectRatio : ℝ := ((x2 : ℝ) - (x1 : ℝ) + 1) / ((y2 : ℝ) - (y1 : ℝ) + 1)
          if |Real.log (aspectRatio / areaAspectRatio)| > maxDiv then []
          else [⟨x1, y1, x2, y2⟩]

/-- First step of `_compute_integral_image`: raise every entry to the power
`e` (`np.power(image, exp)`; the cast to float64 is the identity here). -/
noncomputable def powerImage {D : ℕ} (image : FeatureMap D) (e : ℝ) : FeatureMap D :=
  fun y x c => image y x c ^ e

/-- Cumulative sums along each row (`np.cumsum` over axis 1, per channel). -/
noncomputable def rowCumsum {D : ℕ} (image : FeatureMap D) : FeatureMap D :=
  fun y x c => ∑ j ∈ Finset.range (x + 1), image y j c

/-- Cumulative sums along each column (`np.cumsum` over axis 0, per channel). -/
noncomputable def colCumsum {D : ℕ} (image : FeatureMap D) : FeatureMap D :=
  fun y x c => ∑ i ∈ Finset.range (y + 1), image i x c

/-- `_compute_integral_image`: power the entries, cumulative-sum along rows
then columns, and clamp with `np.fmax(0.0, ·)`. -/
noncomputable def computeIntegralImage {D : ℕ} (image : FeatureMap D) (e : ℝ) :
    FeatureMap D :=
  fun y x c => max 0 (colCumsum (rowCumsum (powerImage image e)) y x c)

/-- `_integral_image_sum`: per-channel windowed sum over
`(left, upper, right, lower)` by inclusion-exclusion on the integral image,
clamped from below by `np.fmax(0.0, ·)`. -/
noncomputable def integralImageSum {D : ℕ} (I : FeatureMap D) (area : Area) :
    Fin D → ℝ := fun c =>
  let v0 := I area.y2 area.x2 c
  let v1 := if 0 < area.x1 then v0 - I area.y2 (area.x1 - 1) c else v0
  let v2 := if 0 < area.y1 then v1 - I (area.y1 - 1) area.x2 c else v1
  let v3 := if 0 < area.x1 ∧ 0 < area.y1 then v2 + I (area.y1 - 1) (area.x1 - 1) c
    else v2
  max 0 v3

/-- `_compute_area_score`: take the windowed sum, apply the 1/e root
channelwise, L2-normalize, dot with the query and clamp to `[-1, 1]`.
`none` models the NaN produced when the L2 norm is zero (then every channel
is 0/0 and the clamped result stays NaN). -/
noncomputable def computeAreaScore {D : ℕ} (query : Fin D → ℝ) (area : Area)
    (I : FeatureMap D) (e : ℝ) : Option ℝ :=
  let maxPool := integralImageSum I area
  let rooted := fun c => maxPool c ^ (1 / e)
  let nrm := Real.sqrt (∑ c, rooted c ^ 2)
  if nrm = 0 then none
  else some (min (max (∑ c, rooted c / nrm * query c) (-1)) 1)

/-- One acceptance test `if score > best_score` of the coarse search in
`localize`.  The initial `best_score = -np.inf` together with
`best_area = None` is the `none` state; a NaN score (`none`) never wins a
comparison, a real score always beats `-∞`. -/
noncomputable def updateBest {D : ℕ} (query : Fin D → ℝ) (I : FeatureMap D)
    (e : ℝ) (best : Option (Area × ℝ)) (area : Area) : Option (Area × ℝ) :=
  match computeAreaScore query area I e with
  | none => best
  | some s =>
    match best with
    | none => some (area, s)
    | some (b, bs) => if s > bs then some (area, s) else some (b, bs)

/-- One full sweep of the area generator inside `localize`'s while-loop,
starting from `best_area = None, best_score = -np.inf`. -/
noncomputable def sweepBest {D : ℕ} (query : Fin D → ℝ) (I : FeatureMap D)
    (shape : ℕ × ℕ) (stepSize : ℕ) (aspectRatio factor : ℝ) :
    Option (Area × ℝ) :=
  (areaGenerator shape stepSize aspectRatio factor).foldl
    (fun best area => updateBest query I AML_EXP best area) none

/-- The `while best_area is None` loop of `localize`: sweep, and on failure
retry with `aspect_ratio_factor + 0.5`.  `fuel` bounds the number of sweeps
(the source loop is unbounded); `none` means no sweep within `fuel` scored a
candidate, i.e. the source would still be looping. -/
noncomputable def coarseSearch {D : ℕ} (query : Fin D → ℝ) (I : FeatureMap D)
    (shape : ℕ × ℕ) (stepSize : ℕ) (aspectRatio : ℝ) :
    ℕ → ℝ → Option (Area × ℝ)
  | 0, _ => none
  | fuel + 1, factor =>
    match sweepBest query I shape stepSize aspectRatio factor with
    | some r => some r
    | none => coarseSearch query I shape stepSize aspectRatio fuel (factor + 0.5)

/-- The eight trial boxes of one refinement iteration, in source order:
for each coordinate `x1, y1, x2, y2` first the decrease then the increase by
`step`, clamped to `min_ranges = [0, 0, x1, y1]` and
`max_ranges = [x2, y2, width-1, height-1]` (all taken from the current best
box, which is restored after each trial). -/
def trialAreas (best : Area) (width height step : ℕ) : List Area :=
  [ { best with x1 := max (best.x1 - step) 0 },
    { best with x1 := min (best.x1 + step) best.x2 },
    { best with y1 := max (best.y1 - step) 0 },
    { best with y1 := min (best.y1 + step) best.y2 },
    { best with x2 := max (best.x2 - step) best.x1 },
    { best with x2 := min (best.x2 + step) (width - 1) },
    { best with y2 := max (best.y2 - step) best.y1 },
    { best with y2 := min (best.y2 + step) (height - 1) } ]

/-- Body of the trial loop of `_area_refinement`: score one trial box and
keep it iff `score > iter_best_score` (false for a NaN score). -/
noncomputable def refineStep {D : ℕ} (query : Fin D → ℝ) (I : FeatureMap D)
    (e : ℝ) (acc : Area × ℝ) (area : Area) : Area × ℝ :=
  match computeAreaScore query area I e with
  | none => acc
  | some s => if s > acc.2 then (area, s) else acc

/-- One iteration of `_area_refinement` at a fixed step size: try all eight
coordinate moves against the iteration's starting score and keep the single
best strict improvement. -/
noncomputable def refineScan {D : ℕ} (query : Fin D → ℝ) (I : FeatureMap D)
    (e : ℝ) (width height step : ℕ) (st : Area × ℝ) : Area × ℝ :=
  (trialAreas st.1 width height step).foldl (refineStep query I e) st

/-- The `for it in range(iterations)` loop of `_area_refinement` at a fixed
step size, with its break: stop as soon as an iteration fails to strictly
improve the score (`iter_best_score == best_score`). -/
noncomputable def refineLoop {D : ℕ} (query : Fin D → ℝ) (I : FeatureMap D)
    (e : ℝ) (width height step : ℕ) : ℕ → Area × ℝ → Area × ℝ
  | 0, st => st
  | n + 1, st =>
    let st' := refineScan query I e width height step st
    if st'.2 = st.2 then st
    else refineLoop query I e width height step n st'

/-- The `for step in range(max_step, 0, -1)` loop of `_area_refinement`:
run the iteration loop for step sizes `s, s-1, ..., 1`. -/
noncomputable def refineStepLoop {D : ℕ} (query : Fin D → ℝ) (I : FeatureMap D)
    (e : ℝ) (width height iterations : ℕ) : ℕ → Area × ℝ → Area × ℝ
  | 0, st => st
  | s + 1, st =>
    refineStepLoop query I e width height iterations s
      (refineLoop query I e width height (s + 1) iterations st)

/-- `_area_refinement`: iterative coordinate-descent improvement of
`initArea` (whose score is `initAreaScore`); returns the final box only,
as the source does.  `width`/`height` are `integral_image.shape[:2]`. -/
noncomputable def areaRefinement {D : ℕ} (query : Fin D → ℝ) (initArea : Area)
    (initAreaScore : ℝ) (I : FeatureMap D) (width height : ℕ)
    (iterations maxStep : ℕ) (e : ℝ) : Area :=
  (refineStepLoop query I e width height iterations maxStep
    (initArea, initAreaScore)).1

/-- `localize`: build the integral image with `AML_EXP`, run the coarse
search (with explicit `fuel` for its unbounded relaxation loop), then refine
the winner with `iterations = 10`, `max_step = 3`.  The source's two entry
assertions (`query_image_shape` has length 2, query dimension matches the
feature channel dimension) hold by the typing of the embedding.  The return
value is the refined box only — the source returns the bare 4-tuple of
`_area_refinement` and no score. -/
noncomputable def localize {D : ℕ} (fuel : ℕ) (query : Fin D → ℝ)
    (features : FeatureMap D) (height width : ℕ) (queryImageShape : ℕ × ℕ)
    (stepSize : ℕ) (aspectRatioFactor : ℝ) : Option Area :=
  let queryAspectRatio : ℝ := (queryImageShape.2 : ℝ) / (queryImageShape.1 : ℝ)
  let I := computeIntegralImage features AML_EXP
  match coarseSearch query I (height, width) stepSize queryAspectRatio fuel
      aspectRatioFactor with
  | none => none
  | some (bestArea, bestScore) =>
    some (areaRefinement query bestArea bestScore I width height 10 3 AML_EXP)

/-- The BoundingBox design invariant of the spec: `left ≤ right`,
`upper ≤ lower`, and all coordinates inside the `(height, width)` canvas
(the `0 ≤` parts hold by the use of `ℕ`). -/
def validArea (width height : ℕ) (a : Area) : Prop :=
  a.x1 ≤ a.x2 ∧ a.x2 ≤ width - 1 ∧ a.y1 ≤ a.y2 ∧ a.y2 ≤ height - 1

/-- All-ones one-channel feature map, for concrete instances. -/
noncomputable def onesImage : FeatureMap 1 := fun _ _ _ => 1

/-- One-channel unit query, for concrete instances. -/
noncomputable def onesQuery : Fin 1 → ℝ := fun _ => 1

/-- All-zero one-channel feature map, for concrete instances. -/
noncomputable def zeroImage : FeatureMap 1 := fun _ _ _ => 0

/-- Two-channel unit query `(3/5, 4/5)` for the concrete refinement trace. -/
noncomputable def traceQuery : Fin 2 → ℝ := ![3/5, 4/5]

/-- A two-channel integral image on a 1 × 4 canvas (independent of the row
index; only row 0 is ever read): the integral image of the powered feature
row `(1,0), (0,0), (2,4), (0,0)`, so the prefix sums are `(1,0)` up to
column 1 and `(3,4)` from column 2 on. -/
noncomputable def traceIntegral : FeatureMap 2 := fun _ x c =>
  if x ≤ 1 then ![1, 0] c else ![3, 4] c

/-! ### Helper lemmas -/

lemma sum_Icc_eq_sub (f : ℕ → ℝ) {a b : ℕ} (hab : a ≤ b) :
    ∑ j ∈ Finset.Icc a b, f j
      = ∑ j ∈ Finset.range (b + 1), f j - ∑ j ∈ Finset.range a, f j := by
  rw [← Nat.Ico_succ_right, Finset.sum_Ico_eq_sub _ (by omega)]

lemma computeIntegralImage_apply {D : ℕ} (image : FeatureMap D) (e : ℝ)
    (hpos : ∀ y x c, 0 ≤ image y x c) (y x : ℕ) (c : Fin D) :
    computeIntegralImage image e y x c
      = ∑ i ∈ Finset.range (y + 1), ∑ j ∈ Finset.range (x + 1), image i j c ^ e := by
  simp only [computeIntegralImage, colCumsum, rowCumsum, powerImage]
  exact max_eq_right (Finset.sum_nonneg fun i _ =>
    Finset.sum_nonneg fun j _ => Real.rpow_nonneg (hpos i j c) e)

lemma mem_rangeStep {start stop step x : ℕ} (hstep : 1 ≤ step)
    (hx : x ∈ rangeStep start stop step) : start ≤ x ∧ x < stop := by
  rw [rangeStep, List.mem_range'] at hx
  obtain ⟨i, hi, rfl⟩ := hx
  refine ⟨Nat.le_add_right _ _, ?_⟩
  have key : step * i + step ≤ stop - start + step - 1 := by
    calc step * i + step = (i + 1) * step := by ring
      _ ≤ ((stop - start + step - 1) / step) * step := Nat.mul_le_mul_right _ hi
      _ ≤ stop - start + step - 1 := Nat.div_mul_le_self _ _
  obtain ⟨p, hp⟩ : ∃ p, step * i = p := ⟨_, rfl⟩
  rw [hp] at key ⊢
  omega

lemma areaGenerator_mem_elim {shape : ℕ × ℕ} {stepSize : ℕ} {ar m : ℝ} {a : Area}
    (ha : a ∈ areaGenerator shape stepSize ar m) :
    a.x1 ∈ rangeStep 0 shape.2 stepSize ∧
    a.x2 ∈ rangeStep (a.x1 + stepSize - 1) shape.2 stepSize ∧
    a.y1 ∈ rangeStep 0 shape.1 stepSize ∧
    a.y2 ∈ rangeStep (a.y1 + stepSize - 1) shape.1 stepSize ∧
    ¬(|Real.log (ar / (((a.x2 : ℝ) - (a.x1 : ℝ) + 1) / ((a.y2 : ℝ) - (a.y1 : ℝ) + 1)))|
      > Real.log m) := by
  simp only [areaGenerator, List.mem_flatMap] at ha
  obtain ⟨x1, hx1, x2, hx2, y1, hy1, y2, hy2, hmem⟩ := ha
  by_cases hc : |Real.log (ar / (((x2 : ℝ) - (x1 : ℝ) + 1) / ((y2 : ℝ) - (y1 : ℝ) + 1)))|
      > Real.log m
  · rw [if_pos hc] at hmem
    simp at hmem
  · rw [if_neg hc] at hmem
    simp only [List.mem_singleton] at hmem
    subst hmem
    exact ⟨hx1, hx2, hy1, hy2, hc⟩

lemma areaGenerator_valid {shape : ℕ × ℕ} {stepSize : ℕ} {ar m : ℝ}
    (hstep : 1 ≤ stepSize) {a : Area} (ha : a ∈ areaGenerator shape stepSize ar m) :
    validArea shape.2 shape.1 a := by
  obtain ⟨h1, h2, h3, h4, -⟩ := areaGenerator_mem_elim ha
  have b1 := mem_rangeStep hstep h1
  have b2 := mem_rangeStep hstep h2
  have b3 := mem_rangeStep hstep h3
  have b4 := mem_rangeStep hstep h4
  simp only [validArea]
  refine ⟨by omega, by omega, by omega, by omega⟩

lemma areaGenerator_one_one_accept {ar m : ℝ} (har : |Real.log ar| ≤ Real.log m) :
    areaGenerator (1, 1) 1 ar m = [⟨0, 0, 0, 0⟩] := by
  simp only [areaGenerator]
  norm_num [rangeStep]
  exact har

lemma areaGenerator_one_one_skip {ar m : ℝ} (h : Real.log m < |Real.log ar|) :
    areaGenerator (1, 1) 1 ar m = [] := by
  simp only [areaGenerator]
  norm_num [rangeStep]
  exact h

lemma computeAreaScore_bounds {D : ℕ} {q : Fin D → ℝ} {a : Area}
    {I : FeatureMap D} {e : ℝ} {v : ℝ}
    (hv : computeAreaScore q a I e = some v) : -1 ≤ v ∧ v ≤ 1 := by
  simp only [computeAreaScore] at hv
  split at hv
  · exact absurd hv (by simp)
  · rw [Option.some.injEq] at hv
    subst hv
    exact ⟨le_min (le_max_right _ _) (by norm_num), min_le_right _ _⟩

lemma trialAreas_valid {width height step : ℕ} {best : Area}
    (hb : validArea width height best) :
    ∀ a ∈ trialAreas best width height step, validArea width height a := by
  obtain ⟨h1, h2, h3, h4⟩ := hb
  intro a ha
  simp only [trialAreas, List.mem_cons, List.not_mem_nil, or_false] at ha
  rcases ha with rfl | rfl | rfl | rfl | rfl | rfl | rfl | rfl <;>
    · simp only [validArea]
      refine ⟨?_, ?_, ?_, ?_⟩ <;> (dsimp only) <;> omega

lemma refineStep_valid {D : ℕ} {q : Fin D → ℝ} {I : FeatureMap D} {e : ℝ}
    {width height : ℕ} {st : Area × ℝ} {a : Area}
    (hst : validArea width height st.1) (ha : validArea width height a) :
    validArea width height (refineStep q I e st a).1 := by
  simp only [refineStep]
  split
  · exact hst
  · split
    · exact ha
    · exact hst

lemma foldl_refineStep_valid {D : ℕ} (q : Fin D → ℝ) (I : FeatureMap D) (e : ℝ)
    {width height : ℕ} (l : List Area) (hl : ∀ a ∈ l, validArea width height a) :
    ∀ st : Area × ℝ, validArea width height st.1 →
      validArea width height (l.foldl (refineStep q I e) st).1 := by
  induction l with
  | nil => exact fun st h => h
  | cons a l ih =>
    intro st hst
    simp only [List.foldl_cons]
    exact ih (fun b hb => hl b (List.mem_cons_of_mem _ hb)) _
      (refineStep_valid hst (hl a (List.mem_cons_self a l)))

lemma refineScan_valid {D : ℕ} {q : Fin D → ℝ} {I : FeatureMap D} {e : ℝ}
    {width height step : ℕ} {st : Area × ℝ} (hst : validArea width height st.1) :
    validArea width height (refineScan q I e width height step st).1 :=
  foldl_refineStep_valid q I e _ (trialAreas_valid hst) st hst

lemma refineLoop_valid {D : ℕ} (q : Fin D → ℝ) (I : FeatureMap D) (e : ℝ)
    (width height step : ℕ) :
    ∀ (n : ℕ) (st : Area × ℝ), validArea width height st.1 →
      validArea width height (refineLoop q I e width height step n st).1 := by
  intro n
  induction n with
  | zero => exact fun st h => h
  | succ n ih =>
    intro st hst
    simp only [refineLoop]
    split
    · exact hst
    · exact ih _ (refineScan_valid hst)

lemma refineStepLoop_valid {D : ℕ} (q : Fin D → ℝ) (I : FeatureMap D) (e : ℝ)
    (width height iterations : ℕ) :
    ∀ (s : ℕ) (st : Area × ℝ), validArea width height st.1 →
      validArea width height (refineStepLoop q I e width height iterations s st).1 := by
  intro s
  induction s with
  | zero => exact fun st h => h
  | succ s ih =>
    intro st hst
    simp only [refineStepLoop]
    exact ih _ (refineLoop_valid q I e width height (s + 1) iterations st hst)

lemma foldl_refineStep_score {D : ℕ} (q : Fin D → ℝ) (I : FeatureMap D) (e : ℝ)
    (l : List Area) :
    ∀ st : Area × ℝ, computeAreaScore q st.1 I e = some st.2 →
      computeAreaScore q (l.foldl (refineStep q I e) st).1 I e
          = some (l.foldl (refineStep q I e) st).2
        ∧ st.2 ≤ (l.foldl (refineStep q I e) st).2 := by
  induction l with
  | nil => exact fun st h => ⟨h, le_refl _⟩
  | cons a l ih =>
    intro st hst
    simp only [List.foldl_cons]
    have hstep : computeAreaScore q (refineStep q I e st a).1 I e
        = some (refineStep q I e st a).2 ∧ st.2 ≤ (refineStep q I e st a).2 := by
      simp only [refineStep]
      split
      · exact ⟨hst, le_refl _⟩
      · rename_i s hsc
        split
        · rename_i hgt
          exact ⟨hsc, le_of_lt hgt⟩
        · exact ⟨hst, le_refl _⟩
    obtain ⟨h1, h2⟩ := hstep
    obtain ⟨h3, h4⟩ := ih _ h1
    exact ⟨h3, le_trans h2 h4⟩

lemma refineLoop_score {D : ℕ} (q : Fin D → ℝ) (I : FeatureMap D) (e : ℝ)
    (width height step : ℕ) :
    ∀ (n : ℕ) (st : Area × ℝ), computeAreaScore q st.1 I e = some st.2 →
      computeAreaScore q (refineLoop q I e width height step n st).1 I e
          = some (refineLoop q I e width height step n st).2
        ∧ st.2 ≤ (refineLoop q I e width height step n st).2 := by
  intro n
  induction n with
  | zero => exact fun st h => ⟨h, le_refl _⟩
  | succ n ih =>
    intro st hst
    simp only [refineLoop]
    split
    · exact ⟨hst, le_refl _⟩
    · obtain ⟨h1, h2⟩ := foldl_refineStep_score q I e _ st hst
      obtain ⟨h3, h4⟩ := ih _ h1
      exact ⟨h3, le_trans h2 h4⟩

lemma refineStepLoop_score {D : ℕ} (q : Fin D → ℝ) (I : FeatureMap D) (e : ℝ)
    (width height iterations : ℕ) :
    ∀ (s : ℕ) (st : Area × ℝ), computeAreaScore q st.1 I e = some st.2 →
      computeAreaScore q (refineStepLoop q I e width height iterations s st).1 I e
          = some (refineStepLoop q I e width height iterations s st).2
        ∧ st.2 ≤ (refineStepLoop q I e width height iterations s st).2 := by
  intro s
  induction s with
  | zero => exact fun st h => ⟨h, le_refl _⟩
  | succ s ih =>
    intro st hst
    simp only [refineStepLoop]
    obtain ⟨h1, h2⟩ := refineLoop_score q I e width height (s + 1) iterations st hst
    obtain ⟨h3, h4⟩ := ih _ h1
    exact ⟨h3, le_trans h2 h4⟩

lemma foldl_refineStep_fixed {D : ℕ} (q : Fin D → ℝ) (I : FeatureMap D) (e : ℝ)
    (l : List Area) (st : Area × ℝ)
    (h : ∀ a ∈ l, ∀ v, computeAreaScore q a I e = some v → v ≤ st.2) :
    l.foldl (refineStep q I e) st = st := by
  induction l with
  | nil => rfl
  | cons a l ih =>
    have hstep : refineStep q I e st a = st := by
      simp only [refineStep]
      split
      · rfl
      · rename_i s hsc
        rw [if_neg (not_lt.mpr (h a (List.mem_cons_self a l) s hsc))]
    simp only [List.foldl_cons, hstep]
    exact ih (fun b hb v hv => h b (List.mem_cons_of_mem _ hb) v hv)

lemma refineScan_fixed {D : ℕ} {q : Fin D → ℝ} {I : FeatureMap D} {e : ℝ}
    {width height step : ℕ} {st : Area × ℝ}
    (h : ∀ a v, computeAreaScore q a I e = some v → v ≤ st.2) :
    refineScan q I e width height step st = st :=
  foldl_refineStep_fixed q I e _ st (fun a _ v hv => h a v hv)

lemma refineLoop_fixed {D : ℕ} {q : Fin D → ℝ} {I : FeatureMap D} {e : ℝ}
    {width height step : ℕ} {st : Area × ℝ}
    (h : ∀ a v, computeAreaScore q a I e = some v → v ≤ st.2) :
    ∀ n, refineLoop q I e width height step n st = st := by
  intro n
  cases n with
  | zero => rfl
  | succ n =>
    simp [refineLoop, refineScan_fixed h]

lemma refineStepLoop_fixed {D : ℕ} {q : Fin D → ℝ} {I : FeatureMap D} {e : ℝ}
    {width height iterations : ℕ} {st : Area × ℝ}
    (h : ∀ a v, computeAreaScore q a I e = some v → v ≤ st.2) :
    ∀ s, refineStepLoop q I e width height iterations s st = st := by
  intro s
  induction s with
  | zero => rfl
  | succ s ih =>
    simp only [refineStepLoop, refineLoop_fixed h, ih]

lemma refineStepLoop_at_one {D : ℕ} (q : Fin D → ℝ) (I : FeatureMap D) (e : ℝ)
    (width height iterations : ℕ) (b : Area) :
    ∀ s, refineStepLoop q I e width height iterations s (b, 1) = (b, 1) :=
  refineStepLoop_fixed (fun _ v hv => (computeAreaScore_bounds hv).2)

lemma foldl_updateBest_mem {D : ℕ} (q : Fin D → ℝ) (I : FeatureMap D) (e : ℝ)
    (l : List Area) :
    ∀ (best : Option (Area × ℝ)) (b : Area) (s : ℝ),
      l.foldl (fun acc area => updateBest q I e acc area) best = some (b, s) →
      best = some (b, s) ∨ b ∈ l := by
  induction l with
  | nil => exact fun best b s h => Or.inl h
  | cons a l ih =>
    intro best b s h
    simp only [List.foldl_cons] at h
    rcases ih _ _ _ h with h' | h'
    · simp only [updateBest] at h'
      split at h'
      · exact Or.inl h'
      · split at h'
        · rw [Option.some.injEq] at h'
          injection h' with h1 h2
          subst h1
          exact Or.inr (List.mem_cons_self _ _)
        · split at h'
          · rw [Option.some.injEq] at h'
            injection h' with h1 h2
            subst h1
            exact Or.inr (List.mem_cons_self _ _)
          · exact Or.inl h'
    · exact Or.inr (List.mem_cons_of_mem _ h')

lemma coarseSearch_mem {D : ℕ} (q : Fin D → ℝ) (I : FeatureMap D) (shape : ℕ × ℕ)
    (stepSize : ℕ) (ar : ℝ) :
    ∀ (fuel : ℕ) (f0 : ℝ) (b : Area) (s : ℝ),
      coarseSearch q I shape stepSize ar fuel f0 = some (b, s) →
      ∃ f, b ∈ areaGenerator shape stepSize ar f := by
  intro fuel
  induction fuel with
  | zero => intro f0 b s h; exact absurd h (by simp [coarseSearch])
  | succ fuel ih =>
    intro f0 b s h
    simp only [coarseSearch] at h
    cases hs : sweepBest q I shape stepSize ar f0 with
    | some r =>
      rw [hs] at h
      simp only [Option.some.injEq] at h
      subst h
      simp only [sweepBest] at hs
      rcases foldl_updateBest_mem q I AML_EXP _ none b s hs with h' | h'
      · exact absurd h' (by simp)
      · exact ⟨f0, h'⟩
    | none =>
      rw [hs] at h
      exact ih _ _ _ h

lemma integralImageSum_ones (c : Fin 1) :
    integralImageSum onesImage ⟨0, 0, 0, 0⟩ c = 1 := by
  simp [integralImageSum, onesImage]

lemma integralImageSum_ones_right (c : Fin 1) :
    integralImageSum onesImage ⟨0, 0, 1, 0⟩ c = 1 := by
  simp [integralImageSum, onesImage]

lemma computeAreaScore_ones :
    computeAreaScore onesQuery ⟨0, 0, 0, 0⟩ onesImage 10 = some 1 := by
  simp only [computeAreaScore, integralImageSum_ones]
  rw [Real.one_rpow]
  norm_num [onesQuery]

lemma computeAreaScore_ones_right :
    computeAreaScore onesQuery ⟨0, 0, 1, 0⟩ onesImage 10 = some 1 := by
  simp only [computeAreaScore, integralImageSum_ones_right]
  rw [Real.one_rpow]
  norm_num [onesQuery]

lemma computeIntegralImage_ones_origin (c : Fin 1) :
    computeIntegralImage onesImage 10 0 0 c = 1 := by
  simp [computeIntegralImage, colCumsum, rowCumsum, powerImage, onesImage,
    Real.one_rpow]

lemma computeAreaScore_ones_integral :
    computeAreaScore onesQuery ⟨0, 0, 0, 0⟩ (computeIntegralImage onesImage 10) 10
      = some 1 := by
  have hsum : ∀ c : Fin 1,
      integralImageSum (computeIntegralImage onesImage 10) ⟨0, 0, 0, 0⟩ c = 1 := by
    intro c
    simp [integralImageSum, computeIntegralImage_ones_origin]
  simp only [computeAreaScore, hsum]
  rw [Real.one_rpow]
  norm_num [onesQuery]

lemma computeAreaScore_zero :
    computeAreaScore onesQuery ⟨0, 0, 0, 0⟩ zeroImage 10 = none := by
  have hsum : ∀ c : Fin 1, integralImageSum zeroImage ⟨0, 0, 0, 0⟩ c = 0 := by
    intro c
    simp [integralImageSum, zeroImage]
  simp only [computeAreaScore, hsum]
  rw [Real.zero_rpow (by norm_num)]
  norm_num

lemma refineLoop_succ {D : ℕ} (q : Fin D → ℝ) (I : FeatureMap D) (e : ℝ)
    (width height step n : ℕ) (st : Area × ℝ) :
    refineLoop q I e width height step (n + 1) st
      = if (refineScan q I e width height step st).2 = st.2 then st
        else refineLoop q I e width height step n
          (refineScan q I e width height step st) := rfl

lemma refineStepLoop_succ {D : ℕ} (q : Fin D → ℝ) (I : FeatureMap D) (e : ℝ)
    (width height iterations s : ℕ) (st : Area × ℝ) :
    refineStepLoop q I e width height iterations (s + 1) st
      = refineStepLoop q I e width height iterations s
          (refineLoop q I e width height (s + 1) iterations st) := rfl

lemma refineScan_fixed_of_trials {D : ℕ} {q : Fin D → ℝ} {I : FeatureMap D}
    {e : ℝ} {width height step : ℕ} {st : Area × ℝ}
    (h : ∀ a ∈ trialAreas st.1 width height step, ∀ v,
      computeAreaScore q a I e = some v → v ≤ st.2) :
    refineScan q I e width height step st = st :=
  foldl_refineStep_fixed q I e _ st h

lemma refineLoop_fixed_of_trials {D : ℕ} {q : Fin D → ℝ} {I : FeatureMap D}
    {e : ℝ} {width height step : ℕ} {st : Area × ℝ}
    (h : ∀ a ∈ trialAreas st.1 width height step, ∀ v,
      computeAreaScore q a I e = some v → v ≤ st.2) :
    ∀ n, refineLoop q I e width height step n st = st := by
  intro n
  cases n with
  | zero => rfl
  | succ n => simp [refineLoop, refineScan_fixed_of_trials h]

lemma refineLoop_at_one {D : ℕ} (q : Fin D → ℝ) (I : FeatureMap D) (e : ℝ)
    (width height step : ℕ) (b : Area) :
    ∀ n, refineLoop q I e width height step n (b, 1) = (b, 1) :=
  refineLoop_fixed (fun _ v hv => (computeAreaScore_bounds hv).2)

lemma traceScore_origin :
    computeAreaScore traceQuery ⟨0, 0, 0, 0⟩ traceIntegral 1 = some (3/5) := by
  have h0 : integralImageSum traceIntegral ⟨0, 0, 0, 0⟩ 0 = 1 := by
    simp [integralImageSum, traceIntegral]
  have h1 : integralImageSum traceIntegral ⟨0, 0, 0, 0⟩ 1 = 0 := by
    simp [integralImageSum, traceIntegral]
  simp only [computeAreaScore, Fin.sum_univ_two, h0, h1]
  rw [show (1 : ℝ) / 1 = 1 by norm_num, Real.rpow_one, Real.rpow_one]
  norm_num [traceQuery]

lemma traceScore_pair :
    computeAreaScore traceQuery ⟨0, 0, 1, 0⟩ traceIntegral 1 = some (3/5) := by
  have h0 : integralImageSum traceIntegral ⟨0, 0, 1, 0⟩ 0 = 1 := by
    simp [integralImageSum, traceIntegral]
  have h1 : integralImageSum traceIntegral ⟨0, 0, 1, 0⟩ 1 = 0 := by
    simp [integralImageSum, traceIntegral]
  simp only [computeAreaScore, Fin.sum_univ_two, h0, h1]
  rw [show (1 : ℝ) / 1 = 1 by norm_num, Real.rpow_one, Real.rpow_one]
  norm_num [traceQuery]

lemma traceScore_full :
    computeAreaScore traceQuery ⟨0, 0, 3, 0⟩ traceIntegral 1 = some 1 := by
  have h0 : integralImageSum traceIntegral ⟨0, 0, 3, 0⟩ 0 = 3 := by
    simp [integralImageSum, traceIntegral]
  have h1 : integralImageSum traceIntegral ⟨0, 0, 3, 0⟩ 1 = 4 := by
    simp [integralImageSum, traceIntegral]
  simp only [computeAreaScore, Fin.sum_univ_two, h0, h1]
  rw [show (1 : ℝ) / 1 = 1 by norm_num, Real.rpow_one, Real.rpow_one,
    show (3 : ℝ) ^ 2 + (4 : ℝ) ^ 2 = 5 ^ 2 by norm_num, Real.sqrt_sq (by norm_num)]
  norm_num [traceQuery]

lemma traceScan_step3 :
    refineScan traceQuery traceIntegral 1 4 1 3 (⟨0, 0, 0, 0⟩, 3/5)
      = (⟨0, 0, 3, 0⟩, 1) := by
  have htrials : trialAreas ⟨0, 0, 0, 0⟩ 4 1 3
      = [⟨0, 0, 0, 0⟩, ⟨0, 0, 0, 0⟩, ⟨0, 0, 0, 0⟩, ⟨0, 0, 0, 0⟩,
         ⟨0, 0, 0, 0⟩, ⟨0, 0, 3, 0⟩, ⟨0, 0, 0, 0⟩, ⟨0, 0, 0, 0⟩] := rfl
  simp only [refineScan, htrials, List.foldl_cons, List.foldl_nil, refineStep,
    traceScore_origin, traceScore_full]
  norm_num

lemma traceLoop_step3 :
    refineLoop traceQuery traceIntegral 1 4 1 3 10 (⟨0, 0, 0, 0⟩, 3/5)
      = (⟨0, 0, 3, 0⟩, 1) := by
  show refineLoop traceQuery traceIntegral 1 4 1 3 (9 + 1) (⟨0, 0, 0, 0⟩, 3/5) = _
  rw [refineLoop_succ, traceScan_step3, if_neg (by norm_num), refineLoop_at_one]

lemma trace_refinement :
    areaRefinement traceQuery ⟨0, 0, 0, 0⟩ (3/5) traceIntegral 4 1 10 3 1
      = ⟨0, 0, 3, 0⟩ := by
  simp only [areaRefinement]
  show (refineStepLoop traceQuery traceIntegral 1 4 1 10 (2 + 1)
    (⟨0, 0, 0, 0⟩, 3/5)).1 = _
  rw [refineStepLoop_succ]
  norm_num
  rw [traceLoop_step3, refineStepLoop_at_one]

lemma sweepBest_ones_skip :
    sweepBest onesQuery onesImage (1, 1) 1 (13/10) (11/10) = none := by
  have h : Real.log (11/10) < |Real.log ((13:ℝ)/10)| := by
    rw [abs_of_nonneg (Real.log_nonneg (by norm_num))]
    exact Real.log_lt_log (by norm_num) (by norm_num)
  rw [sweepBest, areaGenerator_one_one_skip h]
  rfl

lemma sweepBest_ones_accept :
    sweepBest onesQuery onesImage (1, 1) 1 (13/10) (16/10)
      = some (⟨0, 0, 0, 0⟩, 1) := by
  have h : |Real.log ((13:ℝ)/10)| ≤ Real.log (16/10) := by
    rw [abs_of_nonneg (Real.log_nonneg (by norm_num))]
    exact Real.log_le_log (by norm_num) (by norm_num)
  rw [sweepBest, areaGenerator_one_one_accept h]
  simp only [List.foldl_cons, List.foldl_nil, updateBest, AML_EXP,
    computeAreaScore_ones]

lemma localize_ones_eval {m : ℝ} (hm : 0 ≤ Real.log m) :
    localize 1 onesQuery onesImage 1 1 (1, 1) 1 m = some ⟨0, 0, 0, 0⟩ := by
  have hgen : areaGenerator (1, 1) 1 1 m = [⟨0, 0, 0, 0⟩] :=
    areaGenerator_one_one_accept (by simpa [Real.log_one] using hm)
  have hsweep : sweepBest onesQuery (computeIntegralImage onesImage AML_EXP)
      (1, 1) 1 1 m = some (⟨0, 0, 0, 0⟩, 1) := by
    rw [sweepBest, hgen]
    simp only [List.foldl_cons, List.foldl_nil, updateBest, AML_EXP,
      computeAreaScore_ones_integral]
  have hcs : coarseSearch onesQuery (computeIntegralImage onesImage AML_EXP)
      (1, 1) 1 1 1 m = some (⟨0, 0, 0, 0⟩, 1) := by
    show coarseSearch onesQuery (computeIntegralImage onesImage AML_EXP)
      (1, 1) 1 1 (0 + 1) m = some (⟨0, 0, 0, 0⟩, 1)
    simp only [coarseSearch, hsweep]
  simp only [localize]
  rw [show ((1 : ℕ) : ℝ) / ((1 : ℕ) : ℝ) = 1 by norm_num, hcs]
  simp only [areaRefinement, refineStepLoop_at_one]

/-! ### C2 -/

/-- C2: for every feature map with nonnegative entries (the data-model
contract for feature maps), every exponent, and every in-bounds rectangle
with `x1 ≤ x2` and `y1 ≤ y2`, the per-channel windowed sum computed by
`_integral_image_sum` over the integral image built by
`_compute_integral_image` equals the brute-force sum of the `e`-powered
feature entries over that rectangle, exactly over the reals. -/
theorem integral_image_window_sum_correct {D : ℕ} (image : FeatureMap D)
    (e : ℝ) (H W : ℕ) (a : Area) (hx : a.x1 ≤ a.x2) (hy : a.y1 ≤ a.y2)
    (hxW : a.x2 < W) (hyH : a.y2 < H) (hpos : ∀ y x c, 0 ≤ image y x c)
    (c : Fin D) :
    integralImageSum (computeIntegralImage image e) a c
      = ∑ i ∈ Finset.Icc a.y1 a.y2, ∑ j ∈ Finset.Icc a.x1 a.x2, image i j c ^ e := by
  have hpow : ∀ y x : ℕ, (0 : ℝ) ≤ image y x c ^ e := fun y x =>
    Real.rpow_nonneg (hpos y x c) e
  have hII := computeIntegralImage_apply image e hpos
  have hBnn : (0 : ℝ)
      ≤ ∑ i ∈ Finset.Icc a.y1 a.y2, ∑ j ∈ Finset.Icc a.x1 a.x2, image i j c ^ e :=
    Finset.sum_nonneg fun i _ => Finset.sum_nonneg fun j _ => hpow i j
  have hB : ∑ i ∈ Finset.Icc a.y1 a.y2, ∑ j ∈ Finset.Icc a.x1 a.x2, image i j c ^ e
      = (∑ i ∈ Finset.range (a.y2 + 1), ∑ j ∈ Finset.range (a.x2 + 1), image i j c ^ e)
        - (∑ i ∈ Finset.range a.y1, ∑ j ∈ Finset.range (a.x2 + 1), image i j c ^ e)
        - ((∑ i ∈ Finset.range (a.y2 + 1), ∑ j ∈ Finset.range a.x1, image i j c ^ e)
          - (∑ i ∈ Finset.range a.y1, ∑ j ∈ Finset.range a.x1, image i j c ^ e)) := by
    calc ∑ i ∈ Finset.Icc a.y1 a.y2, ∑ j ∈ Finset.Icc a.x1 a.x2, image i j c ^ e
        = ∑ i ∈ Finset.Icc a.y1 a.y2,
            ((∑ j ∈ Finset.range (a.x2 + 1), image i j c ^ e)
              - ∑ j ∈ Finset.range a.x1, image i j c ^ e) :=
          Finset.sum_congr rfl fun i _ => sum_Icc_eq_sub _ hx
      _ = (∑ i ∈ Finset.Icc a.y1 a.y2, ∑ j ∈ Finset.range (a.x2 + 1), image i j c ^ e)
            - ∑ i ∈ Finset.Icc a.y1 a.y2, ∑ j ∈ Finset.range a.x1, image i j c ^ e :=
          Finset.sum_sub_distrib
      _ = _ := by
          rw [sum_Icc_eq_sub (fun i => ∑ j ∈ Finset.range (a.x2 + 1), image i j c ^ e) hy,
            sum_Icc_eq_sub (fun i => ∑ j ∈ Finset.range a.x1, image i j c ^ e) hy]
  rw [hB] at hBnn ⊢
  simp only [integralImageSum]
  by_cases hx1 : 0 < a.x1 <;> by_cases hy1 : 0 < a.y1
  · have ex : a.x1 - 1 + 1 = a.x1 := by omega
    have ey : a.y1 - 1 + 1 = a.y1 := by omega
    rw [if_pos hx1, if_pos hy1, if_pos (⟨hx1, hy1⟩ : 0 < a.x1 ∧ 0 < a.y1),
      hII a.y2 a.x2 c, hII a.y2 (a.x1 - 1) c, hII (a.y1 - 1) a.x2 c,
      hII (a.y1 - 1) (a.x1 - 1) c, ex, ey, max_eq_right (by linarith)]
    ring
  · have ex : a.x1 - 1 + 1 = a.x1 := by omega
    have ey0 : a.y1 = 0 := by omega
    have hT1 : ∑ i ∈ Finset.range a.y1, ∑ j ∈ Finset.range (a.x2 + 1),
        image i j c ^ e = 0 := by rw [ey0]; simp
    have hT2 : ∑ i ∈ Finset.range a.y1, ∑ j ∈ Finset.range a.x1,
        image i j c ^ e = 0 := by rw [ey0]; simp
    rw [hT1, hT2] at hBnn ⊢
    rw [if_pos hx1, if_neg hy1, if_neg (fun h => hy1 h.2),
      hII a.y2 a.x2 c, hII a.y2 (a.x1 - 1) c, ex, max_eq_right (by linarith)]
    ring
  · have ey : a.y1 - 1 + 1 = a.y1 := by omega
    have ex0 : a.x1 = 0 := by omega
    have hU : ∑ i ∈ Finset.range (a.y2 + 1), ∑ j ∈ Finset.range a.x1,
        image i j c ^ e = 0 := by rw [ex0]; simp
    have hT2 : ∑ i ∈ Finset.range a.y1, ∑ j ∈ Finset.range a.x1,
        image i j c ^ e = 0 := by rw [ex0]; simp
    rw [hU, hT2] at hBnn ⊢
    rw [if_neg hx1, if_pos hy1, if_neg (fun h => hx1 h.1),
      hII a.y2 a.x2 c, hII (a.y1 - 1) a.x2 c, ey, max_eq_right (by linarith)]
    ring
  · have ey0 : a.y1 = 0 := by omega
    have ex0 : a.x1 = 0 := by omega
    have hT1 : ∑ i ∈ Finset.range a.y1, ∑ j ∈ Finset.range (a.x2 + 1),
        image i j c ^ e = 0 := by rw [ey0]; simp
    have hU : ∑ i ∈ Finset.range (a.y2 + 1), ∑ j ∈ Finset.range a.x1,
        image i j c ^ e = 0 := by rw [ex0]; simp
    have hT2 : ∑ i ∈ Finset.range a.y1, ∑ j ∈ Finset.range a.x1,
        image i j c ^ e = 0 := by rw [ex0]; simp
    rw [hT1, hU, hT2] at hBnn ⊢
    rw [if_neg hx1, if_neg hy1, if_neg (fun h => hx1 h.1),
      hII a.y2 a.x2 c, max_eq_right (by linarith)]
    ring

/-- C2 witness: the theorem applied to the all-ones 1 × 1 × 1 feature map,
exponent 1 and the rectangle `(0, 0, 0, 0)`. -/
theorem integral_image_window_sum_correct_witness :
    ((0 : ℕ) ≤ 0 ∧ (0 : ℕ) < 1 ∧ (∀ y x (c : Fin 1), (0 : ℝ) ≤ onesImage y x c)) ∧
    integralImageSum (computeIntegralImage onesImage 1) ⟨0, 0, 0, 0⟩ 0
      = ∑ i ∈ Finset.Icc 0 0, ∑ j ∈ Finset.Icc 0 0, onesImage i j 0 ^ (1 : ℝ) :=
  ⟨⟨le_refl 0, Nat.zero_lt_one, fun _ _ _ => zero_le_one⟩,
    integral_image_window_sum_correct onesImage 1 1 1 ⟨0, 0, 0, 0⟩
      (le_refl 0) (le_refl 0) Nat.zero_lt_one Nat.zero_lt_one
      (fun _ _ _ => zero_le_one) 0⟩

/-! ### C1 -/

/-- C1 (code bug): evaluated on a concrete valid input (all-ones 1 × 1 × 1
feature map, matching query, `step_size = 1`, `aspect_ratio_factor = 1.1`),
`localize` returns only the bare 4-tuple bounding box handed back by
`_area_refinement`; no confidence score is part of the returned value, even
though the docstring of `localize` (and the claim) promise the pair
(box, score). -/
theorem localize_returns_bare_box :
    localize 1 onesQuery onesImage 1 1 (1, 1) 1 (11/10)
      = some ⟨0, 0, 0, 0⟩ :=
  localize_ones_eval (Real.log_nonneg (by norm_num))

/-! ### C3 -/

/-- C3 counterexample: on the all-zero feature map (a valid input: entries
are nonnegative), the rectangle `(0, 0, 0, 0)` has zero windowed sum in
every channel, `_compute_area_score` divides by a zero L2 norm, and the
result is NaN (`none`) — not a real number in `[-1, 1]`.  The claim that the
score lies in `[-1, 1]` for every valid input is therefore false. -/
theorem score_unit_interval_counterexample :
    ¬ ∃ v, computeAreaScore onesQuery ⟨0, 0, 0, 0⟩ zeroImage 10 = some v
        ∧ -1 ≤ v ∧ v ≤ 1 := by
  simp [computeAreaScore_zero]

/-- C3 (amended): whenever `_compute_area_score` returns a real number at
all — that is, whenever the pooled vector's L2 norm is nonzero, so no NaN is
produced — the returned value lies in the closed interval `[-1, 1]`. -/
theorem score_unit_interval_amended {D : ℕ} (q : Fin D → ℝ) (a : Area)
    (I : FeatureMap D) (e : ℝ) (v : ℝ)
    (hv : computeAreaScore q a I e = some v) : -1 ≤ v ∧ v ≤ 1 :=
  computeAreaScore_bounds hv

/-- C3 witness: the amended theorem applied to a concrete score. -/
theorem score_unit_interval_amended_witness :
    computeAreaScore onesQuery ⟨0, 0, 0, 0⟩ onesImage 10 = some 1 ∧
    (-1 ≤ (1 : ℝ) ∧ (1 : ℝ) ≤ 1) :=
  ⟨computeAreaScore_ones,
    score_unit_interval_amended onesQuery ⟨0, 0, 0, 0⟩ onesImage 10 1
      computeAreaScore_ones⟩

/-! ### C4 -/

/-- C4: for every query, integral image, initial box together with its
actual score, and any `iterations ≥ 0`, `max_step ≥ 1`, the box returned by
`_area_refinement` scores at least as well as the input box: the tracked
best score only ever increases (acceptance requires a strict improvement),
so refinement never worsens the score. -/
theorem area_refinement_monotone {D : ℕ} (q : Fin D → ℝ) (I : FeatureMap D)
    (e : ℝ) (width height : ℕ) (init : Area) (s0 : ℝ)
    (iterations maxStep : ℕ) (hit : 0 ≤ iterations) (hms : 1 ≤ maxStep)
    (hs0 : computeAreaScore q init I e = some s0) :
    ∃ s, computeAreaScore q
        (areaRefinement q init s0 I width height iterations maxStep e) I e
          = some s
      ∧ s0 ≤ s := by
  obtain ⟨h1, h2⟩ :=
    refineStepLoop_score q I e width height iterations maxStep (init, s0) hs0
  exact ⟨_, h1, h2⟩

/-- C4 witness: refinement on a 1 × 1 canvas starting from the box
`(0, 0, 0, 0)` with its true score 1. -/
theorem area_refinement_monotone_witness :
    ((0 : ℕ) ≤ 10 ∧ (1 : ℕ) ≤ 3 ∧
      computeAreaScore onesQuery ⟨0, 0, 0, 0⟩ onesImage 10 = some 1) ∧
    ∃ s, computeAreaScore onesQuery
        (areaRefinement onesQuery ⟨0, 0, 0, 0⟩ 1 onesImage 1 1 10 3 10)
          onesImage 10 = some s
      ∧ 1 ≤ s :=
  ⟨⟨Nat.zero_le _, by norm_num, computeAreaScore_ones⟩,
    area_refinement_monotone onesQuery onesImage 10 1 1 ⟨0, 0, 0, 0⟩ 1 10 3
      (Nat.zero_le _) (by norm_num) computeAreaScore_ones⟩

/-! ### C5 -/

/-- C5: in the coarse search of `localize`, if the sweeps at the factors
`f0 + 0.5·0, …, f0 + 0.5·(k−1)` all score no candidate and the sweep at
`f0 + 0.5·k` scores one, then (given enough fuel) the search returns exactly
that sweep's winner: the factors tried form the arithmetic sequence with
step `0.5` starting at the initial factor, and the loop terminates at the
first sweep that scores at least one candidate. -/
theorem coarse_search_relaxation {D : ℕ} (q : Fin D → ℝ) (I : FeatureMap D)
    (shape : ℕ × ℕ) (stepSize : ℕ) (ar : ℝ) :
    ∀ (k fuel : ℕ) (f0 : ℝ) (r : Area × ℝ),
      (∀ j < k, sweepBest q I shape stepSize ar (f0 + 0.5 * (j : ℝ)) = none) →
      sweepBest q I shape stepSize ar (f0 + 0.5 * (k : ℝ)) = some r →
      k < fuel →
      coarseSearch q I shape stepSize ar fuel f0 = some r := by
  intro k
  induction k with
  | zero =>
    intro fuel f0 r h0 hk hfuel
    obtain ⟨fuel, rfl⟩ : ∃ m, fuel = m + 1 := ⟨fuel - 1, by omega⟩
    simp only [coarseSearch]
    rw [show f0 + 0.5 * ((0 : ℕ) : ℝ) = f0 by norm_num] at hk
    rw [hk]
  | succ k ih =>
    intro fuel f0 r h0 hk hfuel
    obtain ⟨fuel, rfl⟩ : ∃ m, fuel = m + 1 := ⟨fuel - 1, by omega⟩
    simp only [coarseSearch]
    have hz := h0 0 (Nat.succ_pos k)
    rw [show f0 + 0.5 * ((0 : ℕ) : ℝ) = f0 by norm_num] at hz
    rw [hz]
    apply ih fuel (f0 + 0.5) r ?_ ?_ (by omega)
    · intro j hj
      have hzz := h0 (j + 1) (by omega)
      rw [show f0 + 0.5 * (((j + 1) : ℕ) : ℝ) = f0 + 0.5 + 0.5 * (j : ℝ) by
        push_cast; ring] at hzz
      exact hzz
    · rw [show f0 + 0.5 + 0.5 * ((k : ℕ) : ℝ) = f0 + 0.5 * (((k + 1) : ℕ) : ℝ) by
        push_cast; ring]
      exact hk

/-- C5 witness: with a 1 × 1 canvas, target aspect ratio 13/10 and initial
factor 11/10, the first sweep scores nothing, and the retry at factor
11/10 + 0.5 = 16/10 scores the single candidate, which the search returns. -/
theorem coarse_search_relaxation_witness :
    ((∀ j : ℕ, j < 1 → sweepBest onesQuery onesImage (1, 1) 1 (13/10)
        (11/10 + 0.5 * (j : ℝ)) = none) ∧
      sweepBest onesQuery onesImage (1, 1) 1 (13/10)
        (11/10 + 0.5 * ((1 : ℕ) : ℝ)) = some (⟨0, 0, 0, 0⟩, 1) ∧
      1 < 2) ∧
    coarseSearch onesQuery onesImage (1, 1) 1 (13/10) 2 (11/10)
      = some (⟨0, 0, 0, 0⟩, 1) :=
  have h0 : ∀ j : ℕ, j < 1 → sweepBest onesQuery onesImage (1, 1) 1 (13/10)
      (11/10 + 0.5 * (j : ℝ)) = none := by
    intro j hj
    have hj0 : j = 0 := by omega
    subst hj0
    rw [show (11 : ℝ)/10 + 0.5 * ((0 : ℕ) : ℝ) = 11/10 by norm_num]
    exact sweepBest_ones_skip
  have h1 : sweepBest onesQuery onesImage (1, 1) 1 (13/10)
      (11/10 + 0.5 * ((1 : ℕ) : ℝ)) = some (⟨0, 0, 0, 0⟩, 1) := by
    rw [show (11 : ℝ)/10 + 0.5 * ((1 : ℕ) : ℝ) = 16/10 by norm_num]
    exact sweepBest_ones_accept
  ⟨⟨h0, h1, by norm_num⟩,
    coarse_search_relaxation onesQuery onesImage (1, 1) 1 (13/10) 1 2 (11/10)
      (⟨0, 0, 0, 0⟩, 1) h0 h1 (by norm_num)⟩

/-! ### C6 -/

/-- C6: every rectangle yielded by `_area_generator` (canvas shape
`(height, width)`, `step_size ≥ 1`, target aspect ratio `> 0`, tolerance
factor `> 1`) satisfies
`|log(aspect_ratio) − log((x2−x1+1)/(y2−y1+1))| ≤ log(max_aspect_ratio_div)`. -/
theorem areaGenerator_aspect_bound (shape : ℕ × ℕ) (stepSize : ℕ) (ar m : ℝ)
    (hstep : 1 ≤ stepSize) (har : 0 < ar) (hm : 1 < m) (a : Area)
    (ha : a ∈ areaGenerator shape stepSize ar m) :
    |Real.log ar
        - Real.log (((a.x2 : ℝ) - (a.x1 : ℝ) + 1) / ((a.y2 : ℝ) - (a.y1 : ℝ) + 1))|
      ≤ Real.log m := by
  obtain ⟨h1, h2, h3, h4, hc⟩ := areaGenerator_mem_elim ha
  have b2 := mem_rangeStep hstep h2
  have b4 := mem_rangeStep hstep h4
  have hx : a.x1 ≤ a.x2 := by omega
  have hy : a.y1 ≤ a.y2 := by omega
  have hxx : (a.x1 : ℝ) ≤ (a.x2 : ℝ) := Nat.cast_le.mpr hx
  have hyy : (a.y1 : ℝ) ≤ (a.y2 : ℝ) := Nat.cast_le.mpr hy
  have haar : (0 : ℝ)
      < ((a.x2 : ℝ) - (a.x1 : ℝ) + 1) / ((a.y2 : ℝ) - (a.y1 : ℝ) + 1) :=
    div_pos (by linarith) (by linarith)
  rw [← Real.log_div (ne_of_gt har) (ne_of_gt haar)]
  exact not_lt.mp hc

/-- C6 witness: the theorem applied at canvas (1, 1), step 1, target aspect
ratio 1, tolerance 11/10, and the yielded rectangle (0, 0, 0, 0). -/
theorem areaGenerator_aspect_bound_witness :
    ((1 : ℕ) ≤ 1 ∧ (0 : ℝ) < 1 ∧ (1 : ℝ) < 11/10 ∧
      (⟨0, 0, 0, 0⟩ : Area) ∈ areaGenerator (1, 1) 1 1 (11/10)) ∧
    |Real.log 1
        - Real.log ((((⟨0, 0, 0, 0⟩ : Area).x2 : ℝ) - ((⟨0, 0, 0, 0⟩ : Area).x1 : ℝ) + 1)
          / (((⟨0, 0, 0, 0⟩ : Area).y2 : ℝ) - ((⟨0, 0, 0, 0⟩ : Area).y1 : ℝ) + 1))|
      ≤ Real.log (11/10) :=
  have hmem : (⟨0, 0, 0, 0⟩ : Area) ∈ areaGenerator (1, 1) 1 1 (11/10) := by
    rw [areaGenerator_one_one_accept
      (by rw [Real.log_one, abs_zero]; exact Real.log_nonneg (by norm_num))]
    exact List.mem_singleton.mpr rfl
  ⟨⟨le_refl 1, one_pos, by norm_num, hmem⟩,
    areaGenerator_aspect_bound (1, 1) 1 1 (11/10) (le_refl 1) one_pos
      (by norm_num) ⟨0, 0, 0, 0⟩ hmem⟩

/-! ### C7 -/

/-- C7: every box produced by a producer of the module satisfies the
BoundingBox invariant `left ≤ right`, `upper ≤ lower`, with all coordinates
inside the canvas: (i) every rectangle yielded by `_area_generator`;
(ii) the current box of `_area_refinement` after each iteration of its
improvement loop, provided the incoming box satisfies the invariant;
(iii) the box returned by `localize`. -/
theorem producers_preserve_box_invariant {D : ℕ} :
    (∀ (shape : ℕ × ℕ) (stepSize : ℕ) (ar m : ℝ), 1 ≤ stepSize →
      ∀ a ∈ areaGenerator shape stepSize ar m, validArea shape.2 shape.1 a) ∧
    (∀ (q : Fin D → ℝ) (I : FeatureMap D) (e : ℝ)
      (width height step n : ℕ) (st : Area × ℝ), validArea width height st.1 →
      validArea width height (refineLoop q I e width height step n st).1) ∧
    (∀ (fuel : ℕ) (q : Fin D → ℝ) (features : FeatureMap D)
      (height width : ℕ) (qs : ℕ × ℕ) (stepSize : ℕ) (arf : ℝ) (a : Area),
      1 ≤ stepSize →
      localize fuel q features height width qs stepSize arf = some a →
      validArea width height a) := by
  refine ⟨fun shape stepSize ar m hstep a ha => areaGenerator_valid hstep ha,
    fun q I e width height step n st hst =>
      refineLoop_valid q I e width height step n st hst, ?_⟩
  intro fuel q features height width qs stepSize arf a hstep hloc
  simp only [localize] at hloc
  cases hcs : coarseSearch q (computeIntegralImage features AML_EXP)
      (height, width) stepSize ((qs.2 : ℝ) / (qs.1 : ℝ)) fuel arf with
  | none => rw [hcs] at hloc; exact absurd hloc (by simp)
  | some r =>
    rw [hcs] at hloc
    obtain ⟨b, s⟩ := r
    simp only [Option.some.injEq] at hloc
    subst hloc
    obtain ⟨f, hmem⟩ := coarseSearch_mem _ _ _ _ _ fuel arf b s hcs
    exact refineStepLoop_valid q (computeIntegralImage features AML_EXP)
      AML_EXP width height 10 3 (b, s) (areaGenerator_valid hstep hmem)

/-- C7 witness: the three parts applied to concrete producers on a 1 × 1
canvas. -/
theorem producers_preserve_box_invariant_witness :
    validArea 1 1 (⟨0, 0, 0, 0⟩ : Area) ∧
    validArea 1 1
      (refineLoop onesQuery onesImage 10 1 1 1 1 (⟨0, 0, 0, 0⟩, 1)).1 ∧
    validArea 1 1 (⟨0, 0, 0, 0⟩ : Area) :=
  have hmem : (⟨0, 0, 0, 0⟩ : Area) ∈ areaGenerator (1, 1) 1 1 (11/10) := by
    rw [areaGenerator_one_one_accept
      (by rw [Real.log_one, abs_zero]; exact Real.log_nonneg (by norm_num))]
    exact List.mem_singleton.mpr rfl
  ⟨(@producers_preserve_box_invariant 1).1 (1, 1) 1 1 (11/10) (le_refl 1)
      ⟨0, 0, 0, 0⟩ hmem,
    (@producers_preserve_box_invariant 1).2.1 onesQuery onesImage 10 1 1 1 1
      (⟨0, 0, 0, 0⟩, 1) (by simp [validArea]),
    (@producers_preserve_box_invariant 1).2.2 1 onesQuery onesImage 1 1 (1, 1)
      1 (11/10) ⟨0, 0, 0, 0⟩ (le_refl 1)
      (localize_ones_eval (Real.log_nonneg (by norm_num)))⟩

/-! ### C8 -/

/-- C8 counterexample: on a 1 × 4 canvas with two channels (integral image
`traceIntegral`, query `(3/5, 4/5)`), the box `(0, 0, 0, 0)` with its true
score `3/5` is locally optimal for single-coordinate moves of step 1 (the
only distinct 1-step trial, `(0, 0, 1, 0)`, also scores `3/5`, not better),
yet `_area_refinement` at the default `iterations = 10`, `max_step = 3`
moves it: the step-3 trial `(0, 0, 3, 0)` scores 1, so the returned box is
`(0, 0, 3, 0) ≠ (0, 0, 0, 0)`.  Refinement is not idempotent on 1-step
local optima. -/
theorem one_step_optimum_not_fixed :
    computeAreaScore traceQuery ⟨0, 0, 0, 0⟩ traceIntegral 1 = some (3/5) ∧
    (∀ a ∈ trialAreas ⟨0, 0, 0, 0⟩ 4 1 1, ∀ v,
      computeAreaScore traceQuery a traceIntegral 1 = some v → v ≤ 3/5) ∧
    areaRefinement traceQuery ⟨0, 0, 0, 0⟩ (3/5) traceIntegral 4 1 10 3 1
      ≠ ⟨0, 0, 0, 0⟩ := by
  refine ⟨traceScore_origin, ?_, ?_⟩
  · intro a ha v hv
    have htr : trialAreas ⟨0, 0, 0, 0⟩ 4 1 1
        = [⟨0, 0, 0, 0⟩, ⟨0, 0, 0, 0⟩, ⟨0, 0, 0, 0⟩, ⟨0, 0, 0, 0⟩,
           ⟨0, 0, 0, 0⟩, ⟨0, 0, 1, 0⟩, ⟨0, 0, 0, 0⟩, ⟨0, 0, 0, 0⟩] := rfl
    have hval : ∀ w : Area,
        w = ⟨0, 0, 0, 0⟩ ∨ w = ⟨0, 0, 1, 0⟩ →
        computeAreaScore traceQuery w traceIntegral 1 = some v → v ≤ 3/5 := by
      intro w hcase hw
      rcases hcase with rfl | rfl
      · rw [traceScore_origin, Option.some.injEq] at hw
        exact le_of_eq hw.symm
      · rw [traceScore_pair, Option.some.injEq] at hw
        exact le_of_eq hw.symm
    rw [htr] at ha
    simp only [List.mem_cons, List.not_mem_nil, or_false] at ha
    rcases ha with rfl | rfl | rfl | rfl | rfl | rfl | rfl | rfl <;>
      exact hval _ (by simp) hv
  · rw [trace_refinement]
    decide

/-- C8 (amended): a box that is locally optimal for the clamped
single-coordinate moves of every step size `s ∈ [1, max_step]` (no such move
strictly improves its score) is returned unchanged by `_area_refinement`:
every scan then finds no strict improvement, so every inner loop breaks on
its first iteration at every step size. -/
theorem multi_step_optimum_fixed {D : ℕ} (q : Fin D → ℝ) (I : FeatureMap D)
    (e : ℝ) (width height iterations maxStep : ℕ) (init : Area) (s0 : ℝ)
    (hopt : ∀ s, 1 ≤ s → s ≤ maxStep →
      ∀ a ∈ trialAreas init width height s, ∀ v,
        computeAreaScore q a I e = some v → v ≤ s0) :
    areaRefinement q init s0 I width height iterations maxStep e = init := by
  suffices h : ∀ s, s ≤ maxStep →
      refineStepLoop q I e width height iterations s (init, s0) = (init, s0) by
    simp only [areaRefinement, h maxStep (le_refl _)]
  intro s
  induction s with
  | zero => intro _; rfl
  | succ s ih =>
    intro hs
    have hfix : refineLoop q I e width height (s + 1) iterations (init, s0)
        = (init, s0) :=
      refineLoop_fixed_of_trials (hopt (s + 1) (Nat.succ_le_succ (Nat.zero_le s)) hs) _
    rw [refineStepLoop_succ, hfix]
    exact ih (le_of_lt hs)

/-- C8 witness: on a 1 × 1 canvas every trial box collapses back to
`(0, 0, 0, 0)` for every step size, so the box (with its true score 1) is a
multi-step local optimum and refinement returns it unchanged. -/
theorem multi_step_optimum_fixed_witness :
    (∀ s, 1 ≤ s → s ≤ 3 → ∀ a ∈ trialAreas ⟨0, 0, 0, 0⟩ 1 1 s, ∀ v,
      computeAreaScore onesQuery a onesImage 10 = some v → v ≤ 1) ∧
    areaRefinement onesQuery ⟨0, 0, 0, 0⟩ 1 onesImage 1 1 10 3 10
      = ⟨0, 0, 0, 0⟩ :=
  have hopt : ∀ s, 1 ≤ s → s ≤ 3 → ∀ a ∈ trialAreas ⟨0, 0, 0, 0⟩ 1 1 s, ∀ v,
      computeAreaScore onesQuery a onesImage 10 = some v → v ≤ 1 := by
    intro s hs1 hs3 a ha v hv
    have htr : ∀ a ∈ trialAreas ⟨0, 0, 0, 0⟩ 1 1 s, a = (⟨0, 0, 0, 0⟩ : Area) := by
      intro b hb
      simp [trialAreas] at hb
      rcases hb with rfl | rfl | rfl | rfl | rfl | rfl | rfl | rfl <;> rfl
    rw [htr a ha, computeAreaScore_ones, Option.some.injEq] at hv
    exact le_of_eq hv.symm
  ⟨hopt, multi_step_optimum_fixed onesQuery onesImage 10 1 1 10 3
    ⟨0, 0, 0, 0⟩ 1 hopt⟩

/-! ### C9 -/

/-- C9 counterexample: `localize` performs no validation of `step_size` or
`aspect_ratio_factor`.  A call with `aspect_ratio_factor = 1.0 ≤ 1.0` (on
the all-ones 1 × 1 × 1 input with `step_size = 1`) is not rejected: it runs
the search and returns a bounding box. -/
theorem invalid_factor_not_rejected :
    ((1 : ℝ) ≤ 1) ∧ localize 1 onesQuery onesImage 1 1 (1, 1) 1 1 ≠ none := by
  refine ⟨le_refl 1, ?_⟩
  rw [localize_ones_eval (le_of_eq Real.log_one.symm)]
  simp

/-- C9 (amended): `localize`'s only entry checks are the two shape
assertions (which hold by typing in this embedding); `step_size < 1` and
`aspect_ratio_factor ≤ 1.0` are not rejected.  In particular there is a
valid-shaped input with `aspect_ratio_factor = 1.0` for which `localize`
proceeds into the coarse search and returns a bounding box. -/
theorem localize_no_parameter_validation :
    (1 : ℝ) ≤ 1 ∧ ∃ a, localize 1 onesQuery onesImage 1 1 (1, 1) 1 1 = some a :=
  ⟨le_refl 1, ⟨⟨0, 0, 0, 0⟩, localize_ones_eval (le_of_eq Real.log_one.symm)⟩⟩

/-! ### C10 -/

/-- C10: a rectangle whose `e`-powered windowed sum is zero in every channel
makes `_compute_area_score` divide by a zero L2 norm, and the result is NaN
(modelled by `none`); and such a candidate can never become the best area of
the coarse search, because `NaN > best_score` is false, so the acceptance
test of `localize` leaves the running best unchanged. -/
theorem zero_window_nan_never_best {D : ℕ} (q : Fin D → ℝ) (I : FeatureMap D)
    (e : ℝ) (he : 0 < e) (a : Area)
    (hz : ∀ c, integralImageSum I a c = 0) :
    computeAreaScore q a I e = none ∧
    ∀ best, updateBest q I e best a = best := by
  have hscore : computeAreaScore q a I e = none := by
    simp only [computeAreaScore, hz]
    rw [Real.zero_rpow (one_div_ne_zero (ne_of_gt he))]
    norm_num
  exact ⟨hscore, fun best => by simp only [updateBest, hscore]⟩

/-- C10 witness: the all-zero feature map as integral image, rectangle
`(0, 0, 0, 0)`, exponent 10. -/
theorem zero_window_nan_never_best_witness :
    ((0 : ℝ) < 10 ∧ (∀ c : Fin 1, integralImageSum zeroImage ⟨0, 0, 0, 0⟩ c = 0)) ∧
    computeAreaScore onesQuery ⟨0, 0, 0, 0⟩ zeroImage 10 = none ∧
    ∀ best, updateBest onesQuery zeroImage 10 best ⟨0, 0, 0, 0⟩ = best :=
  have hz : ∀ c : Fin 1, integralImageSum zeroImage ⟨0, 0, 0, 0⟩ c = 0 :=
    fun c => by simp [integralImageSum, zeroImage]
  ⟨⟨by norm_num, hz⟩,
    zero_window_nan_never_best onesQuery zeroImage 10 (by norm_num)
      ⟨0, 0, 0, 0⟩ hz⟩

end Localization
